import Mathlib

/-!
Verification of the glob-style file finder of the `fsesm` repository
(`find.js`: `find`, `globToRegex`, `isIgnored`, `loadGitignore`, `walk`).

The embedding is a shallow one over a POSIX model of the filesystem:

* A directory tree is the inductive `FsTree`.  A `dir` node carries
  `Option (List FsTree)`: `some entries` is a directory whose `opendir`
  succeeds and yields `entries`; `none` is a directory whose `opendir`
  throws (permission denied, vanished mid-walk).  An `other` node is a
  directory entry that is neither a regular file nor a directory
  (symbolic link, socket, FIFO): for such a `dirent`, Node reports both
  `isFile()` and `isDirectory()` as `false`.
* `path.sep` is `/`, `path.join a b` is `a ++ "/" ++ b`, and
  `path.relative base full` strips the prefix `base ++ "/"` (the walker
  only ever applies it to paths below the base directory).
* The `.gitignore` file of the base directory is a separate collaborator
  (`FileSystem.gitignore : Option String`); `none` models a missing or
  unreadable file (`readFile` throwing).
* JavaScript regular expressions are modelled only on the fragment that
  `globToRegex` can produce: the compiled source string is parsed into a
  list of `RAtom` and matched against the whole input (the `^...$`
  anchoring of the source).  JS `.` matches every character except the
  line terminators `\n`, `\r`, U+2028 and U+2029; a negated class such
  as `[^/]` matches line terminators as well.

Every fallible primitive of the source (`opendir`, `readFile`) is
wrapped in a `try`/`catch` whose handler absorbs the error (logging it),
so the embedded walker is a total function: the `Option`-valued
primitives are consumed at exactly the places the source catches.
-/

/-! ## The glob compiler (`globToRegex`)

The source builds a regex source string by four global string
replacements and anchors it:

  1. every regex metacharacter of `. + ^ $ { } ( ) | [ ] \` is escaped,
  2. every `?` becomes `[^/]`,
  3. every `**/` becomes `(?:.+/)?` (left-to-right, non-overlapping),
  4. every remaining `*` becomes `[^/]*`,

and the matcher is `new RegExp("^" ++ escaped ++ "$").test`.
-/

/-- The characters escaped by `pattern.replace(/[.+^${}()|[\]\\]/g, "\\$&")`.
The two brace characters are written by code so that the braces are not
mistaken for interpolation. -/
def escapeSet : List Char := ['.', '+', '^', '$', Char.ofNat 123, Char.ofNat 125, '(', ')', '|', '[', ']', '\\']

/-- Step 1 of `globToRegex`, on one character. -/
def escapeRegexChar (c : Char) : List Char :=
  if c ∈ escapeSet then ['\\', c] else [c]

/-- Step 1 of `globToRegex`: escape every regex metacharacter. -/
def escapeRegex (cs : List Char) : List Char :=
  cs.flatMap escapeRegexChar

/-- Step 2 of `globToRegex`: `.replace(/\?/g, "[^/]")`. -/
def replaceQ (cs : List Char) : List Char :=
  cs.flatMap fun c => if c = '?' then ['[', '^', '/', ']'] else [c]

/-- Step 3 of `globToRegex`: `.replace(/\*\*\//g, "(?:.+/)?")`.  A global
JS replace scans left to right and never rescans replacement output;
the recursion below does the same. -/
def replaceGlobStar : List Char → List Char
  | [] => []
  | [c] => [c]
  | [c1, c2] => [c1, c2]
  | c1 :: c2 :: c3 :: rest =>
    if c1 = '*' ∧ c2 = '*' ∧ c3 = '/' then
      '(' :: '?' :: ':' :: '.' :: '+' :: '/' :: ')' :: '?' :: replaceGlobStar rest
    else
      c1 :: replaceGlobStar (c2 :: c3 :: rest)

/-- Step 4 of `globToRegex`: `.replace(/\*/g, "[^/]*")`. -/
def replaceStar (cs : List Char) : List Char :=
  cs.flatMap fun c => if c = '*' then ['[', '^', '/', ']', '*'] else [c]

/-- The regex source string produced by `globToRegex` (without the
surrounding `^`/`$`, which the matcher below realises as full-string
matching). -/
def globRegexSource (cs : List Char) : List Char :=
  replaceStar (replaceGlobStar (replaceQ (escapeRegex cs)))

/-- The atoms a regex produced by `globToRegex` can consist of:
a literal character (possibly written escaped), the class `[^/]`,
the starred class `[^/]*`, and the group `(?:.+/)?`. -/
inductive RAtom where
  | lit (c : Char)
  | nonSlash
  | nonSlashStar
  | optSegs
deriving DecidableEq

/-- Parser from the regex source strings produced by `globRegexSource`
to atom lists.  On those strings the grammar is unambiguous: every
metacharacter of the pattern was escaped in step 1, so an unescaped `[`
only arises from `[^/]`/`[^/]*`, an unescaped `(` only from `(?:.+/)?`,
and an unescaped `*` only as the tail of `[^/]*`.  Runs on fuel (one
unit per atom) so that it evaluates by kernel reduction. -/
def parseGo : Nat → List Char → List RAtom
  | 0, _ => []
  | _ + 1, [] => []
  | fuel + 1, c :: rest =>
    if c = '\\' then
      match rest with
      | c2 :: r2 => .lit c2 :: parseGo fuel r2
      | [] => []
    else if c = '[' ∧ rest.take 4 = ['^', '/', ']', '*'] then
      .nonSlashStar :: parseGo fuel (rest.drop 4)
    else if c = '[' ∧ rest.take 3 = ['^', '/', ']'] then
      .nonSlash :: parseGo fuel (rest.drop 3)
    else if c = '(' ∧ rest.take 7 = ['?', ':', '.', '+', '/', ')', '?'] then
      .optSegs :: parseGo fuel (rest.drop 7)
    else
      .lit c :: parseGo fuel rest

/-- Parse a full regex source string (the fuel `cs.length` is enough
because every step consumes at least one character). -/
def parseRegex (cs : List Char) : List RAtom :=
  parseGo cs.length cs

/-- JS `.` without the `s` flag: any character except the line
terminators `\n`, `\r`, U+2028, U+2029. -/
def isRegexDot (c : Char) : Bool :=
  !(c = '\n' || c = '\r' || c = '\u2028' || c = '\u2029')

/-! Anchored matcher for atom lists, i.e. the semantics of the regex
`^...$` that `globToRegex` builds.  `matchGo` tries to match the whole
input; `dotsGo as s` matches `.+/` continued by `as` after at least one
`.`-character has already been consumed.  Fueled so that it evaluates by
kernel reduction; each step shortens `as.length + s.length`, so the fuel
`as.length + s.length + 1` used by `atomsMatch` below never runs out. -/

mutual

/-- Anchored matching of an atom list against an input suffix. -/
def matchGo : Nat → List RAtom → List Char → Bool
  | 0, _, _ => false
  | fuel + 1, as, s =>
    match as with
    | [] => s.isEmpty
    | .lit c :: as' =>
      match s with
      | x :: xs => x = c && matchGo fuel as' xs
      | [] => false
    | .nonSlash :: as' =>
      match s with
      | x :: xs => !(x = '/') && matchGo fuel as' xs
      | [] => false
    | .nonSlashStar :: as' =>
      matchGo fuel as' s ||
      (match s with
       | x :: xs => !(x = '/') && matchGo fuel as xs
       | [] => false)
    | .optSegs :: as' =>
      matchGo fuel as' s ||
      (match s with
       | x :: xs => isRegexDot x && dotsGo fuel as' xs
       | [] => false)

/-- Continuation of `.+/`: keep consuming `.`-characters, and at a `/`
optionally stop (the `/` being the literal one of `(?:.+/)?`). -/
def dotsGo : Nat → List RAtom → List Char → Bool
  | 0, _, _ => false
  | fuel + 1, as, s =>
    match s with
    | [] => false
    | x :: xs => (x = '/' && matchGo fuel as xs) || (isRegexDot x && dotsGo fuel as xs)

end

/-- Full-string matching of an atom list. -/
def atomsMatch (as : List RAtom) (s : List Char) : Bool :=
  matchGo (as.length + s.length + 1) as s

/-- `globToRegex pattern`: the compiled matcher of the source, as the
parsed atom list of its regex source string. -/
def globToRegex (pattern : String) : List RAtom :=
  parseRegex (globRegexSource pattern.data)

/-- `matcher.test relPathUnix` for a compiled matcher: anchored
(full-string) matching, as the source's `^...$`. -/
def regexTest (m : List RAtom) (s : String) : Bool :=
  atomsMatch m s.data

example : regexTest (globToRegex "**/*.js") "src/index.js" = true := by decide
example : regexTest (globToRegex "**/*.js") "a.js" = true := by decide
example : regexTest (globToRegex "**/*.js") "a.jsx" = false := by decide
example : regexTest (globToRegex "*.js") "src/index.js" = false := by decide
example : regexTest (globToRegex "") "" = true := by decide
example : regexTest (globToRegex "") "a" = false := by decide
example : regexTest (globToRegex "a?c") "abc" = true := by decide
example : regexTest (globToRegex "a?c") "a/c" = false := by decide
example : regexTest (globToRegex "**/node_modules/**") "node_modules" = false := by decide
example : regexTest (globToRegex "**/node_modules/**") "node_modules/pkg" = true := by decide
example : regexTest (globToRegex "a.b") "a.b" = true := by decide
example : regexTest (globToRegex "a.b") "axb" = false := by decide

/-! ## The filesystem model -/

/-- A directory tree.  `dir name (some entries)` is a directory that
`opendir` can open; `dir name none` is a directory whose `opendir`
throws (permission denied, vanished mid-walk).  `other` is a directory
entry that is neither a regular file nor a directory — a symbolic link
(also one pointing to a directory), socket or FIFO; for such an entry
Node's `dirent.isFile()` and `dirent.isDirectory()` are both `false`. -/
inductive FsTree where
  | file (name : String)
  | dir (name : String) (entries : Option (List FsTree))
  | other (name : String)

/-- `dirent.name`. -/
def FsTree.name : FsTree → String
  | .file n => n
  | .dir n _ => n
  | .other n => n

/-- `dirent.isDirectory()`. -/
def FsTree.isDirectory : FsTree → Bool
  | .dir _ _ => true
  | _ => false

/-- `dirent.isFile()`. -/
def FsTree.isFile : FsTree → Bool
  | .file _ => true
  | _ => false

/-- `opendir`: succeeds with the entry list exactly on an openable
directory; on a file or `other` entry it throws `ENOTDIR`, on an
unopenable directory it throws the underlying error.  The walker
consumes the `none` case inside its `catch`. -/
def opendirE : FsTree → Option (List FsTree)
  | .dir _ (some entries) => some entries
  | _ => none

/-- The filesystem a `find` call sees: the tree under the base
directory, plus the content of `baseDir/.gitignore` (`none` when the
file is missing or unreadable — `readFile` throwing). -/
structure FileSystem where
  root : FsTree
  gitignore : Option String := none

/-! ## POSIX path primitives (the model instantiates `path.sep = '/'`) -/

/-- `path.join dirPath name` for a separator-free entry name. -/
def pathJoin (a b : String) : String := a ++ "/" ++ b

/-- `path.relative base full` for `full` lying below `base`, which is
the only way the walker calls it.  Since `path.sep = '/'` here, the
source's `relPath.split(path.sep).join('/')` is the identity and
`relPath = relPathUnix`. -/
def pathRelative (base full : String) : String :=
  if (base.data ++ ['/']).isPrefixOf full.data then
    { data := full.data.drop (base.data.length + 1) }
  else full

/-- `path.resolve baseDir relPath` for an absolute `baseDir` and a
relative `relPath` (`path.resolve b "" = b`). -/
def pathResolve (base rel : String) : String :=
  if rel = "" then base else base ++ "/" ++ rel

/-- `p.replace(/\\/g, '/')`: normalise separators in a pattern. -/
def normalizeSeps (s : String) : String :=
  { data := s.data.map fun c => if c = '\\' then '/' else c }

/-- `path.extname name` for a separator-free name: the suffix starting
at the last dot, except that a name with no dot, a leading-dot name
with no further dot, and the special names `.` and `..` have no
extension. -/
def lastDot : List Char → Option Nat
  | [] => none
  | c :: rest =>
    match lastDot rest with
    | some i => some (i + 1)
    | none => if c = '.' then some 0 else none

/-- `path.extname`, see `lastDot`. -/
def extname (name : String) : String :=
  if name = "." ∨ name = ".." then ""
  else
    match lastDot name.data with
    | none => ""
    | some 0 => ""
    | some (i + 1) => { data := name.data.drop (i + 1) }

example : extname "Makefile" = "" := by decide
example : extname "index.js" = ".js" := by decide
example : extname ".bashrc" = "" := by decide
example : extname "a.b.c" = ".c" := by decide
example : extname "a." = "." := by decide

/-! ## Options, ignore rules and configuration -/

/-- The `type` option: which entries are eligible for collection. -/
inductive EntryType where
  | files
  | folders
  | all
deriving DecidableEq

/-- `GlobOptions` with the defaults of the source.  `cwd` defaults to
`process.cwd()`, which the host process supplies; the model keeps it as
a plain field (defaulting to the root path) and `path.resolve cwd` is
the identity on the already-absolute `cwd`.  `maxDepth = none` is the
default `Infinity`. -/
structure GlobOptions where
  cwd : String := "/"
  maxDepth : Option Nat := none
  ignore : List String := []
  matchFilesWithoutExtensions : Bool := true
  absolute : Bool := false
  useGitignore : Bool := false
  type : EntryType := .files

/-- JavaScript `s.startsWith(p)`. -/
def strStartsWith (s p : String) : Bool :=
  p.data.isPrefixOf s.data

/-- JavaScript `content.split('\n')`. -/
def splitLines : List Char → List (List Char)
  | [] => [[]]
  | c :: rest =>
    let r := splitLines rest
    if c = '\n' then [] :: r
    else (c :: r.headD []) :: r.tail

/-- JavaScript `line.trim()`: strip leading and trailing whitespace. -/
def jsTrim (s : String) : String :=
  { data := ((s.data.dropWhile Char.isWhitespace).reverse.dropWhile Char.isWhitespace).reverse }

/-- `loadGitignore`: split the file into lines, trim them, drop blank
lines and `#` comments; a missing or unreadable file (the `catch`)
yields no patterns. -/
def loadGitignore : Option String → List String
  | none => []
  | some content =>
    ((splitLines content.data).map fun line => jsTrim { data := line }).filter fun line =>
      !(line == "") && !(strStartsWith line "#")

/-- Normalise each ignore pattern and split the list into deny matchers
and override matchers (`!`-prefixed, prefix stripped before compiling),
preserving the relative order inside each class, as the source's single
loop over `ignoreList` does.  First component: `ignoreMatchers` (deny);
second: `ignoreNegMatchers` (override). -/
def splitIgnores : List String → List (List RAtom) × List (List RAtom)
  | [] => ([], [])
  | ign :: rest =>
    let normIgn := normalizeSeps ign
    let split := splitIgnores rest
    if strStartsWith normIgn "!" then
      (split.1, globToRegex (normIgn.drop 1) :: split.2)
    else
      (globToRegex normIgn :: split.1, split.2)

/-- `isIgnored relPathUnix`: an override match wins unconditionally and
is checked first; otherwise a deny match ignores the path. -/
def isIgnored (ignoreNegMatchers ignoreMatchers : List (List RAtom)) (relPathUnix : String) : Bool :=
  if ignoreNegMatchers.any (fun matcher => regexTest matcher relPathUnix) then false
  else if ignoreMatchers.any (fun matcher => regexTest matcher relPathUnix) then true
  else false

/-- The per-invocation state `find` sets up before walking: resolved
base directory, options, compiled pattern matchers and ignore rules. -/
structure Config where
  baseDir : String
  maxDepth : Option Nat
  matchFilesWithoutExtensions : Bool
  absolute : Bool
  type : EntryType
  matchers : List (List RAtom)
  ignoreMatchers : List (List RAtom)
  ignoreNegMatchers : List (List RAtom)

/-- `currentDepth > maxDepth` (never true for `maxDepth = Infinity`). -/
def gtDepth (d : Nat) : Option Nat → Bool
  | none => false
  | some m => decide (m < d)

/-- `currentDepth < maxDepth` (always true for `maxDepth = Infinity`). -/
def ltDepth (d : Nat) : Option Nat → Bool
  | none => true
  | some m => decide (d < m)

/-- `matchers.some(matcher => matcher.test(relPathUnix))`. -/
def anyMatch (matchers : List (List RAtom)) (relPathUnix : String) : Bool :=
  matchers.any fun matcher => regexTest matcher relPathUnix

/-- The pushed path: `absolute ? path.resolve(baseDir, relPath) : relPath`. -/
def collectPath (cfg : Config) (relPathUnix : String) : String :=
  if cfg.absolute then pathResolve cfg.baseDir relPathUnix else relPathUnix

/-- Collection of a directory entry (the push inside the
`isDirectory` branch). -/
def dirCollect (cfg : Config) (relPathUnix : String) : List String :=
  if (cfg.type = .folders ∨ cfg.type = .all) ∧ anyMatch cfg.matchers relPathUnix then
    [collectPath cfg relPathUnix]
  else []

/-- Collection of a file entry (the `isFile` branch): the extensionless
filter `continue`s before the matchers are consulted. -/
def fileCollect (cfg : Config) (name : String) (relPathUnix : String) (isFileEntry : Bool) : List String :=
  if isFileEntry ∧ (cfg.type = .files ∨ cfg.type = .all) then
    if cfg.matchFilesWithoutExtensions = false ∧ extname name = "" then []
    else if anyMatch cfg.matchers relPathUnix then [collectPath cfg relPathUnix]
    else []
  else []

/-! ## The walker

`walk dirPath currentDepth` of the source, with the tree node passed
alongside its path.  The whole dirent loop sits inside `try ... catch`,
so an `opendir` failure (second `match` arm of `walk`) contributes
nothing and is absorbed.  The source pushes sibling subdirectory walks
into `promises` and awaits them all before returning; their pushes into
the shared `results` array interleave in some schedule, and the model
returns the entries of one admissible schedule (each entry's own push
followed by its subtree's pushes, siblings in directory order) — every
claim below is about membership, not order. -/

mutual

/-- One directory node: depth guard, `opendir`, then the dirent loop. -/
def walk (cfg : Config) (t : FsTree) (dirPath : String) (currentDepth : Nat) : List String :=
  if gtDepth currentDepth cfg.maxDepth then []
  else
    match t with
    | .dir _ (some entries) => walkList cfg entries dirPath currentDepth
    | _ => []

/-- The dirent loop of `walk`. -/
def walkList (cfg : Config) : List FsTree → String → Nat → List String
  | [], _, _ => []
  | dirent :: rest, dirPath, currentDepth =>
    (let fullPath := pathJoin dirPath dirent.name
     let relPathUnix := pathRelative cfg.baseDir fullPath
     if isIgnored cfg.ignoreNegMatchers cfg.ignoreMatchers relPathUnix then []
     else if dirent.isDirectory then
       dirCollect cfg relPathUnix ++
       (if ltDepth currentDepth cfg.maxDepth then walk cfg dirent fullPath (currentDepth + 1) else [])
     else fileCollect cfg dirent.name relPathUnix dirent.isFile) ++
    walkList cfg rest dirPath currentDepth

end

/-- The locals `find` computes before calling `walk(baseDir, 0)`. -/
def mkConfig (patterns : List String) (options : GlobOptions) (fs : FileSystem) : Config :=
  let baseDir := options.cwd
  let normalizedPatterns := patterns.map normalizeSeps
  let matchers := normalizedPatterns.map globToRegex
  let gitignorePatterns := if options.useGitignore then loadGitignore fs.gitignore else []
  let ignoreList := options.ignore ++ gitignorePatterns
  let split := splitIgnores ignoreList
  { baseDir := baseDir
    maxDepth := options.maxDepth
    matchFilesWithoutExtensions := options.matchFilesWithoutExtensions
    absolute := options.absolute
    type := options.type
    matchers := matchers
    ignoreMatchers := split.1
    ignoreNegMatchers := split.2 }

/-- `find(patterns, options)` over the modelled filesystem.  The
`string | string[]` patterns argument is taken in already-normalised
array form. -/
def find (patterns : List String) (options : GlobOptions) (fs : FileSystem) : List String :=
  let cfg := mkConfig patterns options fs
  walk cfg fs.root cfg.baseDir 0

example :
    find ["**/*.js"] { cwd := "/p", ignore := ["**/node_modules/**"] }
      { root := .dir "p" (some
          [.dir "node_modules" (some [.dir "pkg" (some [.file "index.js"])]),
           .dir "src" (some [.file "index.js"])]) } = ["src/index.js"] := by decide

example :
    find ["**/*.ts"] { cwd := "/p" }
      { root := .dir "p" (some [.file "a.ts", .file "b.js", .dir "sub" (some [.file "c.ts"])]) } =
      ["a.ts", "sub/c.ts"] := by decide

/-! ## Specification-side predicates for the walker -/

/-- Collection eligibility by `type`: directories when `folders`/`all`,
files when `files`/`all`; `other` entries never. -/
def kindEligible (k : EntryType) (e : FsTree) : Bool :=
  if e.isDirectory then decide (k = .folders ∨ k = .all)
  else e.isFile && decide (k = .files ∨ k = .all)

/-- The extensionless-file filter passes: an entry fails it exactly when
it is a file, `matchFilesWithoutExtensions` is off, and its name has no
extension. -/
def extOk (cfg : Config) (e : FsTree) : Bool :=
  !(e.isFile && !cfg.matchFilesWithoutExtensions && (extname e.name == ""))

/-- All conditions under which a visited entry `e` with base-relative
POSIX path `rel` puts `x` into the results: not ignored, eligible under
`type`, past the extensionless filter, matched by some pattern matcher,
and `x` is the collected form of `rel`. -/
def Collected (cfg : Config) (e : FsTree) (rel : String) (x : String) : Prop :=
  isIgnored cfg.ignoreNegMatchers cfg.ignoreMatchers rel = false ∧
  kindEligible cfg.type e = true ∧ extOk cfg e = true ∧
  anyMatch cfg.matchers rel = true ∧ x = collectPath cfg rel

/-- `Visits cfg t dirPath d e rel dEnc`: during `walk cfg t dirPath d`,
the dirent loop of some traversed directory iterates over the entry
`e`, whose base-relative POSIX path is `rel`; `dEnc` is the depth
argument of that loop.  `here` is the loop of `t` itself (it runs only
when the depth guard passes and `opendir` succeeds); `deeper` descends
into a subdirectory entry, which the walker does only when the entry is
not ignored, is a directory, and the depth bound allows recursion. -/
inductive Visits (cfg : Config) : FsTree → String → Nat → FsTree → String → Nat → Prop
  | here {t : FsTree} {dirPath : String} {d : Nat} {entries : List FsTree} {e : FsTree} :
      gtDepth d cfg.maxDepth = false →
      opendirE t = some entries →
      e ∈ entries →
      Visits cfg t dirPath d e (pathRelative cfg.baseDir (pathJoin dirPath e.name)) d
  | deeper {t : FsTree} {dirPath : String} {d : Nat} {entries : List FsTree} {sub e : FsTree}
      {rel : String} {dEnc : Nat} :
      gtDepth d cfg.maxDepth = false →
      opendirE t = some entries →
      sub ∈ entries →
      isIgnored cfg.ignoreNegMatchers cfg.ignoreMatchers
        (pathRelative cfg.baseDir (pathJoin dirPath sub.name)) = false →
      sub.isDirectory = true →
      ltDepth d cfg.maxDepth = true →
      Visits cfg sub (pathJoin dirPath sub.name) (d + 1) e rel dEnc →
      Visits cfg t dirPath d e rel dEnc

theorem mem_dirCollect {cfg : Config} {rel x : String} :
    x ∈ dirCollect cfg rel ↔
      ((cfg.type = .folders ∨ cfg.type = .all) ∧ anyMatch cfg.matchers rel = true ∧
        x = collectPath cfg rel) := by
  by_cases h : (cfg.type = .folders ∨ cfg.type = .all) ∧ anyMatch cfg.matchers rel
  · simp [dirCollect, h, h.1, h.2]
  · simp only [dirCollect, if_neg h, List.not_mem_nil, false_iff]
    tauto

theorem mem_fileCollect {cfg : Config} {name rel x : String} {isF : Bool} :
    x ∈ fileCollect cfg name rel isF ↔
      (isF = true ∧ (cfg.type = .files ∨ cfg.type = .all) ∧
       ¬(cfg.matchFilesWithoutExtensions = false ∧ extname name = "") ∧
       anyMatch cfg.matchers rel = true ∧ x = collectPath cfg rel) := by
  by_cases h : isF ∧ (cfg.type = .files ∨ cfg.type = .all)
  · by_cases hext : cfg.matchFilesWithoutExtensions = false ∧ extname name = ""
    · simp [fileCollect, h, hext]
    · by_cases hm : anyMatch cfg.matchers rel
      · simp [fileCollect, h, hext, hm, h.1, h.2]
      · simp only [fileCollect, if_pos h, if_neg hext, if_neg hm, List.not_mem_nil, false_iff]
        tauto
  · simp only [fileCollect, if_neg h, List.not_mem_nil, false_iff]
    tauto

theorem kindEligible_file {k : EntryType} {n : String} :
    kindEligible k (.file n) = true ↔ (k = .files ∨ k = .all) := by
  simp [kindEligible, FsTree.isDirectory, FsTree.isFile]

theorem kindEligible_dir {k : EntryType} {n : String} {oes : Option (List FsTree)} :
    kindEligible k (.dir n oes) = true ↔ (k = .folders ∨ k = .all) := by
  simp [kindEligible, FsTree.isDirectory]

theorem kindEligible_other {k : EntryType} {n : String} :
    kindEligible k (.other n) = false := by
  simp [kindEligible, FsTree.isDirectory, FsTree.isFile]

theorem extOk_file {cfg : Config} {n : String} :
    extOk cfg (.file n) = true ↔ ¬(cfg.matchFilesWithoutExtensions = false ∧ extname n = "") := by
  cases h : cfg.matchFilesWithoutExtensions <;>
    simp [extOk, FsTree.isFile, FsTree.name, h]

theorem extOk_of_not_file {cfg : Config} {e : FsTree} (h : e.isFile = false) :
    extOk cfg e = true := by
  simp [extOk, h]

theorem head_contrib_mem (cfg : Config) (dirent : FsTree) (dirPath : String) (d : Nat)
    (x : String) :
    x ∈ (if isIgnored cfg.ignoreNegMatchers cfg.ignoreMatchers
            (pathRelative cfg.baseDir (pathJoin dirPath dirent.name)) then ([] : List String)
         else if dirent.isDirectory then
           dirCollect cfg (pathRelative cfg.baseDir (pathJoin dirPath dirent.name)) ++
           (if ltDepth d cfg.maxDepth then
              walk cfg dirent (pathJoin dirPath dirent.name) (d + 1) else [])
         else fileCollect cfg dirent.name
           (pathRelative cfg.baseDir (pathJoin dirPath dirent.name)) dirent.isFile) ↔
      (isIgnored cfg.ignoreNegMatchers cfg.ignoreMatchers
          (pathRelative cfg.baseDir (pathJoin dirPath dirent.name)) = false ∧
       ((kindEligible cfg.type dirent = true ∧ extOk cfg dirent = true ∧
         anyMatch cfg.matchers (pathRelative cfg.baseDir (pathJoin dirPath dirent.name)) = true ∧
         x = collectPath cfg (pathRelative cfg.baseDir (pathJoin dirPath dirent.name)))
        ∨ (dirent.isDirectory = true ∧ ltDepth d cfg.maxDepth = true ∧
           x ∈ walk cfg dirent (pathJoin dirPath dirent.name) (d + 1)))) := by
  set rel := pathRelative cfg.baseDir (pathJoin dirPath dirent.name) with hrel
  by_cases hig : isIgnored cfg.ignoreNegMatchers cfg.ignoreMatchers rel
  · simp [hig]
  · rw [if_neg hig]
    have hig' : isIgnored cfg.ignoreNegMatchers cfg.ignoreMatchers rel = false :=
      Bool.not_eq_true _ ▸ hig
    cases dirent with
    | file n =>
      simp only [FsTree.isDirectory, Bool.false_eq_true, if_false, FsTree.isFile, FsTree.name]
      rw [mem_fileCollect]
      simp only [hig', true_and, kindEligible_file, extOk_file]
      tauto
    | dir n oes =>
      simp only [FsTree.isDirectory, if_true, FsTree.name]
      rw [List.mem_append, mem_dirCollect]
      have hext : extOk cfg (.dir n oes) = true := extOk_of_not_file rfl
      by_cases hlt : ltDepth d cfg.maxDepth
      · simp only [if_pos hlt, hig', true_and, kindEligible_dir, hext, hlt]
        tauto
      · have hlt' : ltDepth d cfg.maxDepth = false := Bool.not_eq_true _ ▸ hlt
        simp only [if_neg hlt, List.not_mem_nil, or_false, hig', true_and, kindEligible_dir,
          hext, hlt']
        tauto
    | other n =>
      simp only [FsTree.isDirectory, Bool.false_eq_true, if_false, FsTree.isFile, FsTree.name]
      rw [mem_fileCollect]
      simp only [hig', true_and, kindEligible_other]
      tauto

theorem walkList_mem (cfg : Config) (es : List FsTree) (dirPath : String) (d : Nat) (x : String) :
    x ∈ walkList cfg es dirPath d ↔
      ∃ e ∈ es,
        isIgnored cfg.ignoreNegMatchers cfg.ignoreMatchers
            (pathRelative cfg.baseDir (pathJoin dirPath e.name)) = false ∧
        ((kindEligible cfg.type e = true ∧ extOk cfg e = true ∧
          anyMatch cfg.matchers (pathRelative cfg.baseDir (pathJoin dirPath e.name)) = true ∧
          x = collectPath cfg (pathRelative cfg.baseDir (pathJoin dirPath e.name)))
         ∨ (e.isDirectory = true ∧ ltDepth d cfg.maxDepth = true ∧
            x ∈ walk cfg e (pathJoin dirPath e.name) (d + 1))) := by
  induction es with
  | nil => simp [walkList]
  | cons dirent rest ih =>
    simp only [walkList]
    rw [List.mem_append, ih, head_contrib_mem cfg dirent dirPath d x]
    constructor
    · rintro (h | ⟨e, he, h⟩)
      · exact ⟨dirent, List.mem_cons_self _ _, h⟩
      · exact ⟨e, List.mem_cons_of_mem _ he, h⟩
    · rintro ⟨e, he, h⟩
      rcases List.mem_cons.mp he with rfl | he'
      · exact Or.inl h
      · exact Or.inr ⟨e, he', h⟩

theorem sizeOf_pos_fstree (t : FsTree) : 1 ≤ sizeOf t := by
  cases t <;> simp_arith

theorem sizeOf_lt_of_mem_entries {e : FsTree} {es : List FsTree} (h : e ∈ es) (n : String) :
    sizeOf e < sizeOf (FsTree.dir n (some es)) := by
  have h1 := List.sizeOf_lt_of_mem h
  simp only [FsTree.dir.sizeOf_spec, Option.some.sizeOf_spec]
  omega

/-- The central characterisation of the walker: `x` is in the result of
`walk` exactly when some visited entry satisfies all collection
conditions and `x` is its collected path. -/
theorem walk_mem_iff (cfg : Config) (t : FsTree) (dirPath : String) (d : Nat) (x : String) :
    x ∈ walk cfg t dirPath d ↔
      ∃ e rel dEnc, Visits cfg t dirPath d e rel dEnc ∧ Collected cfg e rel x := by
  suffices H : ∀ (n : Nat) (t : FsTree) (dirPath : String) (d : Nat) (x : String), sizeOf t ≤ n →
      (x ∈ walk cfg t dirPath d ↔
        ∃ e rel dEnc, Visits cfg t dirPath d e rel dEnc ∧ Collected cfg e rel x) by
    exact H (sizeOf t) t dirPath d x le_rfl
  intro n
  induction n with
  | zero =>
    intro t dirPath d x ht
    exact absurd (sizeOf_pos_fstree t) (by omega)
  | succ n ih =>
    intro t dirPath d x ht
    rw [walk.eq_def]
    by_cases hgt : gtDepth d cfg.maxDepth
    · rw [if_pos hgt]
      simp only [List.not_mem_nil, false_iff]
      rintro ⟨e, rel, dEnc, hv, _⟩
      cases hv <;> simp_all
    · have hgt' : gtDepth d cfg.maxDepth = false := Bool.not_eq_true _ ▸ hgt
      rw [if_neg hgt]
      match t with
      | .file nm =>
        simp only [List.not_mem_nil, false_iff]
        rintro ⟨e, rel, dEnc, hv, _⟩
        cases hv <;> simp_all [opendirE]
      | .other nm =>
        simp only [List.not_mem_nil, false_iff]
        rintro ⟨e, rel, dEnc, hv, _⟩
        cases hv <;> simp_all [opendirE]
      | .dir nm none =>
        simp only [List.not_mem_nil, false_iff]
        rintro ⟨e, rel, dEnc, hv, _⟩
        cases hv <;> simp_all [opendirE]
      | .dir nm (some es) =>
        rw [walkList_mem]
        have hop : opendirE (.dir nm (some es)) = some es := rfl
        constructor
        · rintro ⟨e, he, hig, hcase⟩
          rcases hcase with ⟨hk, hx, hm, hxx⟩ | ⟨hdir, hlt, hmem⟩
          · exact ⟨e, _, d, Visits.here hgt' hop he, hig, hk, hx, hm, hxx⟩
          · have hsz : sizeOf e ≤ n := by
              have := sizeOf_lt_of_mem_entries he nm
              omega
            obtain ⟨e', rel', dEnc, hv, hc⟩ :=
              (ih e (pathJoin dirPath e.name) (d + 1) x hsz).mp hmem
            exact ⟨e', rel', dEnc, Visits.deeper hgt' hop he hig hdir hlt hv, hc⟩
        · rintro ⟨e', rel', dEnc, hv, hc⟩
          cases hv with
          | here hgt2 hop2 hmem2 =>
            rw [hop] at hop2
            injection hop2 with hes
            subst hes
            exact ⟨e', hmem2, hc.1, Or.inl ⟨hc.2.1, hc.2.2.1, hc.2.2.2.1, hc.2.2.2.2⟩⟩
          | deeper hgt2 hop2 hsub hig2 hdir2 hlt2 hv2 =>
            rename_i entries sub
            rw [hop] at hop2
            injection hop2 with hes
            subst hes
            have hsz : sizeOf sub ≤ n := by
              have := sizeOf_lt_of_mem_entries hsub nm
              omega
            have hmem : x ∈ walk cfg sub (pathJoin dirPath sub.name) (d + 1) :=
              (ih sub (pathJoin dirPath sub.name) (d + 1) x hsz).mpr ⟨e', rel', dEnc, hv2, hc⟩
            exact ⟨sub, hsub, hig2, Or.inr ⟨hdir2, hlt2, hmem⟩⟩

/-! ## Depth bounds of the traversal -/

/-- Every visited entry's loop runs at a depth between the starting
depth and the depth bound. -/
theorem visits_depth_bounds {cfg : Config} {t : FsTree} {dirPath : String} {d : Nat}
    {e : FsTree} {rel : String} {dEnc : Nat}
    (h : Visits cfg t dirPath d e rel dEnc) :
    d ≤ dEnc ∧ gtDepth dEnc cfg.maxDepth = false := by
  induction h with
  | here hgt _ _ => exact ⟨le_rfl, hgt⟩
  | deeper _ _ _ _ _ _ _ ih => exact ⟨Nat.le_of_succ_le ih.1, ih.2⟩

/-- With `maxDepth = 0` the walker never descends: everything visited
is a direct entry of the start directory, at depth 0. -/
theorem visits_maxDepth_zero {cfg : Config} (hm : cfg.maxDepth = some 0) {t : FsTree}
    {dirPath : String} {e : FsTree} {rel : String} {dEnc : Nat}
    (h : Visits cfg t dirPath 0 e rel dEnc) :
    dEnc = 0 ∧ ∃ es, opendirE t = some es ∧ e ∈ es := by
  cases h with
  | here hgt hop hmem => exact ⟨rfl, _, hop, hmem⟩
  | deeper hgt hop hsub hig hdir hlt hv =>
    rw [hm] at hlt
    simp [ltDepth] at hlt

/-! ## Relative paths of visited entries -/

theorem pathJoin_data (a b : String) : (pathJoin a b).data = a.data ++ '/' :: b.data := by
  show (a ++ "/" ++ b).data = _
  have h1 : (a ++ "/" ++ b).data = a.data ++ "/".data ++ b.data := rfl
  rw [h1]
  simp

theorem pathRelative_join (base : String) (s : List Char) :
    pathRelative base { data := base.data ++ '/' :: s } = { data := s } := by
  unfold pathRelative
  rw [if_pos]
  · have h2 : base.data ++ '/' :: s = (base.data ++ ['/']) ++ s := by simp
    simp only [h2]
    have h3 : (base.data ++ ['/']).length = base.data.length + 1 := by simp
    rw [show base.data.length + 1 = (base.data ++ ['/']).length from h3.symm, List.drop_left]
  · have h2 : base.data ++ '/' :: s = (base.data ++ ['/']) ++ s := by simp
    simp only [h2]
    rw [List.isPrefixOf_iff_prefix]
    exact List.prefix_append _ _

/-! Well-formedness of a modelled tree: every directory entry has a
non-empty name, as every real `dirent` does. -/

mutual

/-- Every entry name in the tree is non-empty. -/
def wfNames : FsTree → Bool
  | .dir _ (some es) => wfList es
  | _ => true

/-- List version of `wfNames`. -/
def wfList : List FsTree → Bool
  | [] => true
  | e :: rest => !(e.name == "") && wfNames e && wfList rest

end

theorem string_data_ne_nil {s : String} (h : s ≠ "") : s.data ≠ [] := by
  intro hd
  apply h
  apply String.ext
  rw [hd]

theorem wfList_mem {es : List FsTree} {e : FsTree} (hm : e ∈ es) (h : wfList es = true) :
    e.name ≠ "" ∧ wfNames e = true := by
  induction es with
  | nil => cases hm
  | cons f rest ih =>
    simp only [wfList, Bool.and_eq_true, Bool.not_eq_true', beq_eq_false_iff_ne] at h
    rcases List.mem_cons.mp hm with rfl | hm'
    · exact ⟨h.1.1, h.1.2⟩
    · exact ih hm' h.2

theorem wfNames_entries {t : FsTree} {es : List FsTree} (h : opendirE t = some es)
    (hwf : wfNames t = true) : wfList es = true := by
  cases t with
  | dir nm oes =>
    cases oes with
    | some es2 =>
      have hes : es2 = es := by simpa [opendirE] using h
      subst hes
      simpa [wfNames] using hwf
    | none => simp [opendirE] at h
  | file nm => simp [opendirE] at h
  | other nm => simp [opendirE] at h

/-- In a well-formed tree the base-relative path of every visited entry
is non-empty: the walker only ever matches and collects entries found
inside visited directories, never the traversal root itself. -/
theorem visits_rel_ne_empty {cfg : Config} {t : FsTree} {dirPath : String} {d : Nat}
    {e : FsTree} {rel : String} {dEnc : Nat}
    (h : Visits cfg t dirPath d e rel dEnc) (hwf : wfNames t = true)
    (hdp : dirPath = cfg.baseDir ∨
      ∃ r : List Char, r ≠ [] ∧ dirPath = { data := cfg.baseDir.data ++ '/' :: r }) :
    rel.data ≠ [] := by
  induction h with
  | here hgt hop hmem =>
    rename_i t' dirPath' d' entries e'
    have hwfl : wfList entries = true := wfNames_entries hop hwf
    have hnd : e'.name.data ≠ [] := string_data_ne_nil (wfList_mem hmem hwfl).1
    rcases hdp with rfl | ⟨r, hr, rfl⟩
    · have hj : pathJoin cfg.baseDir e'.name =
          { data := cfg.baseDir.data ++ '/' :: e'.name.data } := by
        apply String.ext
        rw [pathJoin_data]
      rw [hj, pathRelative_join]
      exact hnd
    · have hj : pathJoin { data := cfg.baseDir.data ++ '/' :: r } e'.name =
          { data := cfg.baseDir.data ++ '/' :: (r ++ '/' :: e'.name.data) } := by
        apply String.ext
        rw [pathJoin_data]
        simp
      rw [hj, pathRelative_join]
      simp [hr]
  | deeper hgt hop hsub hig hdir hlt hv ih =>
    rename_i t' dirPath' d' entries sub e' rel' dEnc'
    have hwfl : wfList entries = true := wfNames_entries hop hwf
    have hsubwf := wfList_mem hsub hwfl
    have hnd : sub.name.data ≠ [] := string_data_ne_nil hsubwf.1
    apply ih hsubwf.2
    rcases hdp with rfl | ⟨r, hr, rfl⟩
    · right
      refine ⟨sub.name.data, hnd, ?_⟩
      apply String.ext
      rw [pathJoin_data]
    · right
      refine ⟨r ++ '/' :: sub.name.data, by simp, ?_⟩
      apply String.ext
      rw [pathJoin_data]
      simp

/-! ## Direct tokenisation of glob patterns

`globTokens` reads a pattern in a single pass using the same priorities
as the replacement chain of `globToRegex` (`?` first, then `**/`, then
remaining `*`, all other characters literal).  The theorem
`parse_globRegexSource` below proves that the four-step replacement
pipeline compiles every pattern to exactly these atoms — i.e. that the
earlier replacements are never clobbered by later ones. -/

/-- Single-pass tokenisation of a glob pattern, on fuel (one unit per
pattern position) so that it evaluates by kernel reduction. -/
def globTokensGo : Nat → List Char → List RAtom
  | 0, _ => []
  | _ + 1, [] => []
  | fuel + 1, c :: rest =>
    if c = '?' then .nonSlash :: globTokensGo fuel rest
    else if c = '*' ∧ rest.take 2 = ['*', '/'] then .optSegs :: globTokensGo fuel (rest.drop 2)
    else if c = '*' then .nonSlashStar :: globTokensGo fuel rest
    else .lit c :: globTokensGo fuel rest

/-- Single-pass tokenisation of a glob pattern (each step consumes at
least one character, so the fuel `cs.length` is enough). -/
def globTokens (cs : List Char) : List RAtom :=
  globTokensGo cs.length cs

theorem escapeRegex_cons (c : Char) (l : List Char) :
    escapeRegex (c :: l) = escapeRegexChar c ++ escapeRegex l :=
  List.flatMap_cons c l escapeRegexChar

theorem replaceQ_cons (c : Char) (l : List Char) :
    replaceQ (c :: l) = (if c = '?' then ['[', '^', '/', ']'] else [c]) ++ replaceQ l :=
  List.flatMap_cons c l _

theorem replaceQ_append (a b : List Char) :
    replaceQ (a ++ b) = replaceQ a ++ replaceQ b :=
  List.flatMap_append a b _

theorem replaceStar_cons (c : Char) (l : List Char) :
    replaceStar (c :: l) = (if c = '*' then ['[', '^', '/', ']', '*'] else [c]) ++ replaceStar l :=
  List.flatMap_cons c l _

theorem replaceStar_append (a b : List Char) :
    replaceStar (a ++ b) = replaceStar a ++ replaceStar b :=
  List.flatMap_append a b _

theorem replaceGlobStar_cons_ne {c : Char} (h : c ≠ '*') (l : List Char) :
    replaceGlobStar (c :: l) = c :: replaceGlobStar l := by
  match l with
  | [] => rfl
  | [d] => rfl
  | d :: e :: r =>
    show replaceGlobStar (c :: d :: e :: r) = _
    rw [replaceGlobStar]
    rw [if_neg]
    intro hc
    exact h hc.1

theorem replaceGlobStar_append_no_star {a : List Char} (b : List Char)
    (h : ∀ c ∈ a, c ≠ '*') :
    replaceGlobStar (a ++ b) = a ++ replaceGlobStar b := by
  induction a with
  | nil => rfl
  | cons c a' ih =>
    rw [List.cons_append, replaceGlobStar_cons_ne (h c (List.mem_cons_self c a')),
      ih fun d hd => h d (List.mem_cons_of_mem _ hd)]
    rfl

theorem replaceGlobStar_globstar (rest : List Char) :
    replaceGlobStar ('*' :: '*' :: '/' :: rest) =
      '(' :: '?' :: ':' :: '.' :: '+' :: '/' :: ')' :: '?' :: replaceGlobStar rest := by
  rw [replaceGlobStar, if_pos ⟨rfl, rfl, rfl⟩]

theorem replaceGlobStar_star_cons {l : List Char} (h : l.take 2 ≠ ['*', '/']) :
    replaceGlobStar ('*' :: l) = '*' :: replaceGlobStar l := by
  match l with
  | [] => rfl
  | [d] => rfl
  | d :: e :: r =>
    rw [replaceGlobStar, if_neg]
    intro hc
    exact h (by simp [hc.2.1, hc.2.2])

theorem replaceStar_head (l : List Char) : (replaceStar l).head? ≠ some '*' := by
  cases l with
  | nil => simp [replaceStar]
  | cons d l' =>
    by_cases hd : d = '*'
    · rw [replaceStar_cons, if_pos hd]
      simp
    · rw [replaceStar_cons, if_neg hd]
      simpa using hd

/-! Fuel stability: a fueled scanner that consumes at least one
character per step computes the same list from any sufficient fuel. -/

theorem fuelGo_stable (f : Nat → List Char → List RAtom)
    (A : Char → List Char → List RAtom) (B : Char → List Char → List Char)
    (hnil : ∀ fuel, f fuel [] = [])
    (hcons : ∀ fuel c rest, f (fuel + 1) (c :: rest) = A c rest ++ f fuel (B c rest))
    (hB : ∀ c rest, (B c rest).length ≤ rest.length) :
    ∀ (n g : Nat) (cs : List Char), cs.length ≤ g → g ≤ n → f g cs = f cs.length cs := by
  intro n
  induction n with
  | zero =>
    intro g cs h1 h2
    have hg : g = 0 := by omega
    subst hg
    have hcs : cs = [] := by cases cs <;> simp_all
    subst hcs
    rfl
  | succ n ih =>
    intro g cs h1 h2
    match cs with
    | [] => rw [hnil, hnil]
    | c :: rest =>
      have hlen : rest.length + 1 ≤ g := by simpa using h1
      obtain ⟨g', rfl⟩ : ∃ g', g = g' + 1 := ⟨g - 1, by omega⟩
      rw [hcons, List.length_cons, hcons]
      have hBl := hB c rest
      rw [ih g' (B c rest) (by omega) (by omega),
        ih rest.length (B c rest) hBl (by omega)]

/-- The atoms one step of `parseGo` emits. -/
def parseStepA (c : Char) (rest : List Char) : List RAtom :=
  if c = '\\' then
    match rest with
    | c2 :: _ => [.lit c2]
    | [] => []
  else if c = '[' ∧ rest.take 4 = ['^', '/', ']', '*'] then [.nonSlashStar]
  else if c = '[' ∧ rest.take 3 = ['^', '/', ']'] then [.nonSlash]
  else if c = '(' ∧ rest.take 7 = ['?', ':', '.', '+', '/', ')', '?'] then [.optSegs]
  else [.lit c]

/-- The remaining input after one step of `parseGo`. -/
def parseStepB (c : Char) (rest : List Char) : List Char :=
  if c = '\\' then
    match rest with
    | _ :: r2 => r2
    | [] => []
  else if c = '[' ∧ rest.take 4 = ['^', '/', ']', '*'] then rest.drop 4
  else if c = '[' ∧ rest.take 3 = ['^', '/', ']'] then rest.drop 3
  else if c = '(' ∧ rest.take 7 = ['?', ':', '.', '+', '/', ')', '?'] then rest.drop 7
  else rest

theorem parseGo_nil (fuel : Nat) : parseGo fuel [] = [] := by
  cases fuel <;> rfl

theorem parseGo_cons (fuel : Nat) (c : Char) (rest : List Char) :
    parseGo (fuel + 1) (c :: rest) = parseStepA c rest ++ parseGo fuel (parseStepB c rest) := by
  by_cases h1 : c = '\\'
  · simp only [parseGo, parseStepA, parseStepB, if_pos h1]
    match rest with
    | [] => simp [parseGo_nil]
    | c2 :: r2 => rfl
  · by_cases h2 : c = '[' ∧ rest.take 4 = ['^', '/', ']', '*']
    · simp only [parseGo, parseStepA, parseStepB, if_neg h1, if_pos h2]
      rfl
    · by_cases h3 : c = '[' ∧ rest.take 3 = ['^', '/', ']']
      · simp only [parseGo, parseStepA, parseStepB, if_neg h1, if_neg h2, if_pos h3]
        rfl
      · by_cases h4 : c = '(' ∧ rest.take 7 = ['?', ':', '.', '+', '/', ')', '?']
        · simp only [parseGo, parseStepA, parseStepB, if_neg h1, if_neg h2, if_neg h3, if_pos h4]
          rfl
        · simp only [parseGo, parseStepA, parseStepB, if_neg h1, if_neg h2, if_neg h3, if_neg h4]
          rfl

theorem parseStepB_length (c : Char) (rest : List Char) :
    (parseStepB c rest).length ≤ rest.length := by
  unfold parseStepB
  by_cases h1 : c = '\\'
  · rw [if_pos h1]
    match rest with
    | [] => simp
    | c2 :: r2 => simp
  · rw [if_neg h1]
    split
    · simp
    · split
      · simp
      · split
        · simp
        · exact le_rfl

theorem parseGo_stable {g : Nat} {cs : List Char} (h : cs.length ≤ g) :
    parseGo g cs = parseRegex cs :=
  fuelGo_stable parseGo parseStepA parseStepB parseGo_nil parseGo_cons parseStepB_length
    g g cs h le_rfl

/-- The atoms one step of `globTokensGo` emits. -/
def tokenStepA (c : Char) (rest : List Char) : List RAtom :=
  if c = '?' then [.nonSlash]
  else if c = '*' ∧ rest.take 2 = ['*', '/'] then [.optSegs]
  else if c = '*' then [.nonSlashStar]
  else [.lit c]

/-- The remaining input after one step of `globTokensGo`. -/
def tokenStepB (c : Char) (rest : List Char) : List Char :=
  if c = '?' then rest
  else if c = '*' ∧ rest.take 2 = ['*', '/'] then rest.drop 2
  else rest

theorem globTokensGo_nil (fuel : Nat) : globTokensGo fuel [] = [] := by
  cases fuel <;> rfl

theorem globTokensGo_cons (fuel : Nat) (c : Char) (rest : List Char) :
    globTokensGo (fuel + 1) (c :: rest) = tokenStepA c rest ++ globTokensGo fuel (tokenStepB c rest) := by
  by_cases h1 : c = '?'
  · simp only [globTokensGo, tokenStepA, tokenStepB, if_pos h1]
    rfl
  · by_cases h2 : c = '*' ∧ rest.take 2 = ['*', '/']
    · simp only [globTokensGo, tokenStepA, tokenStepB, if_neg h1, if_pos h2]
      rfl
    · by_cases h3 : c = '*'
      · simp only [globTokensGo, tokenStepA, tokenStepB, if_neg h1, if_neg h2, if_pos h3]
        rfl
      · simp only [globTokensGo, tokenStepA, tokenStepB, if_neg h1, if_neg h2, if_neg h3]
        rfl

theorem tokenStepB_length (c : Char) (rest : List Char) :
    (tokenStepB c rest).length ≤ rest.length := by
  unfold tokenStepB
  split
  · exact le_rfl
  · split
    · simp
    · exact le_rfl

theorem globTokensGo_stable {g : Nat} {cs : List Char} (h : cs.length ≤ g) :
    globTokensGo g cs = globTokens cs :=
  fuelGo_stable globTokensGo tokenStepA tokenStepB globTokensGo_nil globTokensGo_cons
    tokenStepB_length g g cs h le_rfl

/-! Step equations for `globTokens`. -/

theorem globTokens_q (rest : List Char) :
    globTokens ('?' :: rest) = .nonSlash :: globTokens rest := by
  show globTokensGo (rest.length + 1) ('?' :: rest) = _
  rw [globTokensGo_cons]
  have hA : tokenStepA '?' rest = [.nonSlash] := by
    simp [tokenStepA]
  have hB : tokenStepB '?' rest = rest := by
    simp [tokenStepB]
  rw [hA, hB, globTokensGo_stable (le_refl _)]
  rfl

theorem globTokens_globstar (rest : List Char) :
    globTokens ('*' :: '*' :: '/' :: rest) = .optSegs :: globTokens rest := by
  show globTokensGo (rest.length + 3) ('*' :: '*' :: '/' :: rest) = _
  rw [show rest.length + 3 = (rest.length + 2) + 1 from rfl, globTokensGo_cons]
  have hA : tokenStepA '*' ('*' :: '/' :: rest) = [.optSegs] := by
    simp [tokenStepA]
  have hB : tokenStepB '*' ('*' :: '/' :: rest) = rest := by
    simp [tokenStepB]
  rw [hA, hB, globTokensGo_stable (by omega)]
  rfl

theorem globTokens_star {rest : List Char} (h : rest.take 2 ≠ ['*', '/']) :
    globTokens ('*' :: rest) = .nonSlashStar :: globTokens rest := by
  show globTokensGo (rest.length + 1) ('*' :: rest) = _
  rw [globTokensGo_cons]
  have hA : tokenStepA '*' rest = [.nonSlashStar] := by
    simp [tokenStepA, h]
  have hB : tokenStepB '*' rest = rest := by
    simp [tokenStepB, h]
  rw [hA, hB, globTokensGo_stable (le_refl _)]
  rfl

theorem globTokens_lit {c : Char} (rest : List Char) (h1 : c ≠ '?') (h2 : c ≠ '*') :
    globTokens (c :: rest) = .lit c :: globTokens rest := by
  show globTokensGo (rest.length + 1) (c :: rest) = _
  rw [globTokensGo_cons]
  have hA : tokenStepA c rest = [.lit c] := by
    simp [tokenStepA, h1, h2]
  have hB : tokenStepB c rest = rest := by
    simp [tokenStepB, h1, h2]
  rw [hA, hB, globTokensGo_stable (le_refl _)]
  rfl

/-! Step equations for `parseRegex` on the shapes `globRegexSource`
produces. -/

theorem parseRegex_backslash (c : Char) (v : List Char) :
    parseRegex ('\\' :: c :: v) = .lit c :: parseRegex v := by
  show parseGo (v.length + 2) ('\\' :: c :: v) = _
  rw [show v.length + 2 = (v.length + 1) + 1 from rfl, parseGo_cons]
  have hA : parseStepA '\\' (c :: v) = [.lit c] := by
    simp [parseStepA]
  have hB : parseStepB '\\' (c :: v) = v := by
    simp [parseStepB]
  rw [hA, hB, parseGo_stable (by omega)]
  rfl

theorem parseRegex_nonSlashStar (v : List Char) :
    parseRegex ('[' :: '^' :: '/' :: ']' :: '*' :: v) = .nonSlashStar :: parseRegex v := by
  show parseGo (v.length + 5) ('[' :: '^' :: '/' :: ']' :: '*' :: v) = _
  rw [show v.length + 5 = (v.length + 4) + 1 from rfl, parseGo_cons]
  have hA : parseStepA '[' ('^' :: '/' :: ']' :: '*' :: v) = [.nonSlashStar] := by
    simp [parseStepA]
  have hB : parseStepB '[' ('^' :: '/' :: ']' :: '*' :: v) = v := by
    simp [parseStepB]
  rw [hA, hB, parseGo_stable (by omega)]
  rfl

theorem parseRegex_nonSlash (v : List Char) (h : v.head? ≠ some '*') :
    parseRegex ('[' :: '^' :: '/' :: ']' :: v) = .nonSlash :: parseRegex v := by
  have htake : ('^' :: '/' :: ']' :: v).take 4 ≠ ['^', '/', ']', '*'] := by
    cases v with
    | nil => simp
    | cons a v' =>
      have ha : a ≠ '*' := by simpa using h
      simp [List.take, ha]
  show parseGo (v.length + 4) ('[' :: '^' :: '/' :: ']' :: v) = _
  rw [show v.length + 4 = (v.length + 3) + 1 from rfl, parseGo_cons]
  have hA : parseStepA '[' ('^' :: '/' :: ']' :: v) = [.nonSlash] := by
    simp only [parseStepA]
    rw [if_neg (by decide), if_neg (by simpa using htake), if_pos (by simp)]
  have hB : parseStepB '[' ('^' :: '/' :: ']' :: v) = v := by
    simp only [parseStepB]
    rw [if_neg (by decide), if_neg (by simpa using htake), if_pos (by simp)]
    rfl
  rw [hA, hB, parseGo_stable (by omega)]
  rfl

theorem parseRegex_optSegs (v : List Char) :
    parseRegex ('(' :: '?' :: ':' :: '.' :: '+' :: '/' :: ')' :: '?' :: v) =
      .optSegs :: parseRegex v := by
  show parseGo (v.length + 8) _ = _
  rw [show v.length + 8 = (v.length + 7) + 1 from rfl, parseGo_cons]
  have hA : parseStepA '(' ('?' :: ':' :: '.' :: '+' :: '/' :: ')' :: '?' :: v) = [.optSegs] := by
    simp [parseStepA]
  have hB : parseStepB '(' ('?' :: ':' :: '.' :: '+' :: '/' :: ')' :: '?' :: v) = v := by
    simp [parseStepB]
  rw [hA, hB, parseGo_stable (by omega)]
  rfl

theorem parseRegex_lit (c : Char) (v : List Char) (h1 : c ≠ '\\') (h2 : c ≠ '[')
    (h3 : c ≠ '(') :
    parseRegex (c :: v) = .lit c :: parseRegex v := by
  show parseGo (v.length + 1) (c :: v) = _
  rw [parseGo_cons]
  have hA : parseStepA c v = [.lit c] := by
    simp [parseStepA, h1, h2, h3]
  have hB : parseStepB c v = v := by
    simp [parseStepB, h1, h2, h3]
  rw [hA, hB, parseGo_stable (le_refl _)]
  rfl

/-! Heads of the intermediate string `replaceQ (escapeRegex l)`:
the escaping and `?`-replacement neither create nor destroy a leading
`*`/`/` or a leading `*/` pair, which is what the `**/` scan looks at. -/

theorem take1_eq_head {l : List Char} {a : Char} : l.take 1 = [a] ↔ l.head? = some a := by
  cases l <;> simp [List.take]

theorem take2_shape {l : List Char} {a b : Char} (h : l.take 2 = [a, b]) :
    ∃ r, l = a :: b :: r := by
  match l with
  | [] => simp at h
  | [x] => simp [List.take] at h
  | x :: y :: r =>
    simp [List.take] at h
    exact ⟨r, by rw [h.1, h.2]⟩

theorem QE_head (l : List Char) :
    (replaceQ (escapeRegex l)).head? = some '/' ↔ l.head? = some '/' := by
  cases l with
  | nil => simp [escapeRegex, replaceQ]
  | cons c l' =>
    rw [escapeRegex_cons, replaceQ_append]
    by_cases hc : c ∈ escapeSet
    · have hcq : c ≠ '?' := fun h => by subst h; revert hc; decide
      have hcs : c ≠ '/' := fun h => by subst h; revert hc; decide
      rw [show escapeRegexChar c = ['\\', c] from if_pos hc]
      have hq : replaceQ ['\\', c] = ['\\', c] := by
        simp [replaceQ, hcq]
      rw [hq]
      simp [hcs]
    · by_cases hcq : c = '?'
      · subst hcq
        rw [show escapeRegexChar '?' = ['?'] from by decide]
        rw [show replaceQ ['?'] = ['[', '^', '/', ']'] from by decide]
        simp
      · rw [show escapeRegexChar c = [c] from if_neg hc]
        have hq : replaceQ [c] = [c] := by
          simp [replaceQ, hcq]
        rw [hq]
        simp

theorem QE_take2 (l : List Char) :
    (replaceQ (escapeRegex l)).take 2 = ['*', '/'] ↔ l.take 2 = ['*', '/'] := by
  cases l with
  | nil => simp [escapeRegex, replaceQ]
  | cons c l' =>
    rw [escapeRegex_cons, replaceQ_append]
    by_cases hc : c ∈ escapeSet
    · have hcq : c ≠ '?' := fun h => by subst h; revert hc; decide
      have hcs : c ≠ '*' := fun h => by subst h; revert hc; decide
      rw [show escapeRegexChar c = ['\\', c] from if_pos hc]
      have hq : replaceQ ['\\', c] = ['\\', c] := by
        simp [replaceQ, hcq]
      rw [hq]
      simp [List.take, hcs]
    · by_cases hcq : c = '?'
      · subst hcq
        rw [show escapeRegexChar '?' = ['?'] from by decide]
        rw [show replaceQ ['?'] = ['[', '^', '/', ']'] from by decide]
        simp [List.take]
      · rw [show escapeRegexChar c = [c] from if_neg hc]
        have hq : replaceQ [c] = [c] := by
          simp [replaceQ, hcq]
        rw [hq]
        by_cases hcs : c = '*'
        · subst hcs
          simp only [List.singleton_append, List.take, List.cons.injEq, true_and]
          rw [take1_eq_head, take1_eq_head]
          exact QE_head l'
        · simp [List.take, hcs]

/-- The four-step replacement pipeline plus regex parsing equals the
single-pass tokenisation: the compiled matcher of `globToRegex` is the
direct glob semantics, with no clobbering between replacement steps. -/
theorem parse_globRegexSource (cs : List Char) :
    parseRegex (globRegexSource cs) = globTokens cs := by
  suffices H : ∀ (n : Nat) (l : List Char), l.length ≤ n →
      parseRegex (globRegexSource l) = globTokens l from H cs.length cs le_rfl
  intro n
  induction n with
  | zero =>
    intro l h
    have hl : l = [] := by cases l <;> simp_all
    subst hl
    rfl
  | succ n ih =>
    intro l hlen
    match l with
    | [] => rfl
    | c :: rest =>
      have hlen' : rest.length ≤ n := by simpa using hlen
      by_cases hq : c = '?'
      · subst hq
        have hpipe : globRegexSource ('?' :: rest) =
            '[' :: '^' :: '/' :: ']' :: globRegexSource rest := by
          show replaceStar (replaceGlobStar (replaceQ (escapeRegex ('?' :: rest)))) = _
          rw [escapeRegex_cons, show escapeRegexChar '?' = ['?'] from by decide,
            List.singleton_append, replaceQ_cons, if_pos rfl,
            replaceGlobStar_append_no_star _ (by decide), replaceStar_append]
          rfl
        rw [hpipe,
          parseRegex_nonSlash _ (show (globRegexSource rest).head? ≠ some '*' from
            replaceStar_head _),
          ih rest hlen', globTokens_q]
      · by_cases hs : c = '*'
        · subst hs
          by_cases hsd : rest.take 2 = ['*', '/']
          · obtain ⟨rest2, rfl⟩ := take2_shape hsd
            have hlen2 : rest2.length ≤ n := by simp at hlen; omega
            have hpipe : globRegexSource ('*' :: '*' :: '/' :: rest2) =
                '(' :: '?' :: ':' :: '.' :: '+' :: '/' :: ')' :: '?' :: globRegexSource rest2 := by
              show replaceStar (replaceGlobStar (replaceQ (escapeRegex ('*' :: '*' :: '/' :: rest2)))) = _
              rw [escapeRegex_cons, show escapeRegexChar '*' = ['*'] from by decide,
                List.singleton_append,
                escapeRegex_cons, show escapeRegexChar '*' = ['*'] from by decide,
                List.singleton_append,
                escapeRegex_cons, show escapeRegexChar '/' = ['/'] from by decide,
                List.singleton_append]
              rw [replaceQ_cons, if_neg (by decide), List.singleton_append,
                replaceQ_cons, if_neg (by decide), List.singleton_append,
                replaceQ_cons, if_neg (by decide), List.singleton_append]
              rw [replaceGlobStar_globstar]
              have h8 := replaceStar_append ['(', '?', ':', '.', '+', '/', ')', '?']
                (replaceGlobStar (replaceQ (escapeRegex rest2)))
              rw [show replaceStar ['(', '?', ':', '.', '+', '/', ')', '?'] =
                ['(', '?', ':', '.', '+', '/', ')', '?'] from rfl] at h8
              simpa using h8
            rw [hpipe, parseRegex_optSegs, ih rest2 hlen2, globTokens_globstar]
          · have hpipe : globRegexSource ('*' :: rest) =
                '[' :: '^' :: '/' :: ']' :: '*' :: globRegexSource rest := by
              show replaceStar (replaceGlobStar (replaceQ (escapeRegex ('*' :: rest)))) = _
              rw [escapeRegex_cons, show escapeRegexChar '*' = ['*'] from by decide,
                List.singleton_append, replaceQ_cons, if_neg (by decide),
                List.singleton_append,
                replaceGlobStar_star_cons (fun h => hsd ((QE_take2 rest).mp h)),
                replaceStar_cons, if_pos rfl]
              rfl
            rw [hpipe, parseRegex_nonSlashStar, ih rest hlen', globTokens_star hsd]
        · by_cases hc : c ∈ escapeSet
          · have hpipe : globRegexSource (c :: rest) =
                '\\' :: c :: globRegexSource rest := by
              show replaceStar (replaceGlobStar (replaceQ (escapeRegex (c :: rest)))) = _
              rw [escapeRegex_cons,
                show escapeRegexChar c = ['\\', c] from by
                  unfold escapeRegexChar
                  rw [if_pos hc],
                show (['\\', c] ++ escapeRegex rest : List Char) =
                  '\\' :: c :: escapeRegex rest from rfl]
              rw [replaceQ_cons, if_neg (by decide), List.singleton_append,
                replaceQ_cons, if_neg hq, List.singleton_append,
                replaceGlobStar_cons_ne (by decide), replaceGlobStar_cons_ne hs,
                replaceStar_cons, if_neg (by decide), List.singleton_append,
                replaceStar_cons, if_neg hs, List.singleton_append]
              rfl
            rw [hpipe, parseRegex_backslash, ih rest hlen', globTokens_lit rest hq hs]
          · have hb : c ≠ '\\' := fun h => by subst h; revert hc; decide
            have hbr : c ≠ '[' := fun h => by subst h; revert hc; decide
            have hpa : c ≠ '(' := fun h => by subst h; revert hc; decide
            have hpipe : globRegexSource (c :: rest) = c :: globRegexSource rest := by
              show replaceStar (replaceGlobStar (replaceQ (escapeRegex (c :: rest)))) = _
              rw [escapeRegex_cons,
                show escapeRegexChar c = [c] from by
                  unfold escapeRegexChar
                  rw [if_neg hc],
                List.singleton_append,
                replaceQ_cons, if_neg hq, List.singleton_append,
                replaceGlobStar_cons_ne hs,
                replaceStar_cons, if_neg hs, List.singleton_append]
              rfl
            rw [hpipe, parseRegex_lit c _ hb hbr hpa, ih rest hlen', globTokens_lit rest hq hs]

/-! Specification-side matcher for the claimed glob semantics, where
`**/` means literally "zero or more whole path segments": each consumed
segment is a non-empty run of non-separator characters followed by a
separator.  The code's `(?:.+/)?` differs in two ways: JS `.` refuses
line terminators (so a segment containing one is never matched), and
`.+/` is any run ending in a separator (so it also matches runs with
empty segments such as `//`).  All other atoms have the same meaning on
both sides. -/

mutual

/-- Matcher with the whole-segments reading of `**/`. -/
def specMatchGo : Nat → List RAtom → List Char → Bool
  | 0, _, _ => false
  | fuel + 1, as, s =>
    match as with
    | [] => s.isEmpty
    | .lit c :: as' =>
      match s with
      | x :: xs => x = c && specMatchGo fuel as' xs
      | [] => false
    | .nonSlash :: as' =>
      match s with
      | x :: xs => !(x = '/') && specMatchGo fuel as' xs
      | [] => false
    | .nonSlashStar :: as' =>
      specMatchGo fuel as' s ||
      (match s with
       | x :: xs => !(x = '/') && specMatchGo fuel as xs
       | [] => false)
    | .optSegs :: as' =>
      specMatchGo fuel as' s ||
      (match s with
       | x :: xs => !(x = '/') && specSegGo fuel as xs
       | [] => false)

/-- Inside one path segment of the whole-segments `**/`: consume the
rest of a non-empty segment, then its separator, then continue with the
same `**/` atom (zero or more further segments). -/
def specSegGo : Nat → List RAtom → List Char → Bool
  | 0, _, _ => false
  | fuel + 1, as, s =>
    match s with
    | [] => false
    | x :: xs => (x = '/' && specMatchGo fuel as xs) || (!(x = '/') && specSegGo fuel as xs)

end

/-- Full-string matching under the whole-segments reading. -/
def specAtomsMatch (as : List RAtom) (s : List Char) : Bool :=
  specMatchGo (as.length + s.length + 1) as s

/-- The glob semantics the claim describes, as a matcher on full
strings: tokenise the pattern with the replacement order of the claim
and give `**/` the whole-segments meaning. -/
def specGlobMatch (pattern p : String) : Bool :=
  specAtomsMatch (globTokens pattern.data) p.data

theorem atomsMatch_nil (s : List Char) : atomsMatch [] s = s.isEmpty := by
  simp [atomsMatch, matchGo]

/-! ## Characterisation of the ignore-rule split -/

theorem splitIgnores_deny_any (l : List String) (p : String) :
    ((splitIgnores l).1.any fun m => regexTest m p) = true ↔
      ∃ s ∈ l, strStartsWith (normalizeSeps s) "!" = false ∧
        regexTest (globToRegex (normalizeSeps s)) p = true := by
  induction l with
  | nil => simp [splitIgnores]
  | cons ign rest ih =>
    simp only [splitIgnores]
    by_cases hb : strStartsWith (normalizeSeps ign) "!"
    · rw [if_pos hb]
      simp only [List.mem_cons]
      constructor
      · intro h
        obtain ⟨s, hs, hcond⟩ := ih.mp h
        exact ⟨s, Or.inr hs, hcond⟩
      · rintro ⟨s, hs | hs, hcond⟩
        · subst hs
          rw [hb] at hcond
          cases hcond.1
        · exact ih.mpr ⟨s, hs, hcond⟩
    · rw [if_neg hb]
      have hb' : strStartsWith (normalizeSeps ign) "!" = false := Bool.not_eq_true _ ▸ hb
      simp only [List.any_cons, Bool.or_eq_true, List.mem_cons]
      constructor
      · rintro (h | h)
        · exact ⟨ign, Or.inl rfl, hb', h⟩
        · obtain ⟨s, hs, hcond⟩ := ih.mp h
          exact ⟨s, Or.inr hs, hcond⟩
      · rintro ⟨s, hs | hs, hcond⟩
        · subst hs
          exact Or.inl hcond.2
        · exact Or.inr (ih.mpr ⟨s, hs, hcond⟩)

theorem splitIgnores_neg_any (l : List String) (p : String) :
    ((splitIgnores l).2.any fun m => regexTest m p) = true ↔
      ∃ s ∈ l, strStartsWith (normalizeSeps s) "!" = true ∧
        regexTest (globToRegex ((normalizeSeps s).drop 1)) p = true := by
  induction l with
  | nil => simp [splitIgnores]
  | cons ign rest ih =>
    simp only [splitIgnores]
    by_cases hb : strStartsWith (normalizeSeps ign) "!"
    · rw [if_pos hb]
      simp only [List.any_cons, Bool.or_eq_true, List.mem_cons]
      constructor
      · rintro (h | h)
        · exact ⟨ign, Or.inl rfl, hb, h⟩
        · obtain ⟨s, hs, hcond⟩ := ih.mp h
          exact ⟨s, Or.inr hs, hcond⟩
      · rintro ⟨s, hs | hs, hcond⟩
        · subst hs
          exact Or.inl hcond.2
        · exact Or.inr (ih.mpr ⟨s, hs, hcond⟩)
    · rw [if_neg hb]
      have hb' : strStartsWith (normalizeSeps ign) "!" = false := Bool.not_eq_true _ ▸ hb
      simp only [List.mem_cons]
      constructor
      · intro h
        obtain ⟨s, hs, hcond⟩ := ih.mp h
        exact ⟨s, Or.inr hs, hcond⟩
      · rintro ⟨s, hs | hs, hcond⟩
        · subst hs
          rw [hb'] at hcond
          cases hcond.1
        · exact ih.mpr ⟨s, hs, hcond⟩

/-! ## The claims -/

/-- C1: during a `find` invocation, a string is in the results exactly
when some directory entry the walker visits is not ignored, is eligible
under the `type` option, passes the extensionless filter (a condition
only files can fail), has its base-relative POSIX path matched by at
least one compiled pattern matcher, and the string is that path —
base-relative when `absolute` is false, resolved against the base
directory when `absolute` is true (`collectPath`). -/
theorem claim1_find_collects_iff (patterns : List String) (options : GlobOptions)
    (fs : FileSystem) (x : String) :
    x ∈ find patterns options fs ↔
      ∃ e rel dEnc,
        Visits (mkConfig patterns options fs) fs.root
          (mkConfig patterns options fs).baseDir 0 e rel dEnc ∧
        isIgnored (mkConfig patterns options fs).ignoreNegMatchers
          (mkConfig patterns options fs).ignoreMatchers rel = false ∧
        kindEligible (mkConfig patterns options fs).type e = true ∧
        extOk (mkConfig patterns options fs) e = true ∧
        anyMatch (mkConfig patterns options fs).matchers rel = true ∧
        x = collectPath (mkConfig patterns options fs) rel := by
  have h := walk_mem_iff (mkConfig patterns options fs) fs.root
    (mkConfig patterns options fs).baseDir 0 x
  simpa [Collected, find] using h

/-- C2 counterexample: the compiled matcher does not agree with the
"zero or more whole path segments" reading of `**/` on every string.
For the pattern `**/b`: the path `a\n/b` consists of the whole segment
`a\n` followed by `b`, so the claimed semantics matches it, but the
compiled regex `^(?:.+/)?b$` rejects it because JS `.` does not match a
line terminator; conversely the compiled regex accepts `//b` (the run
`/` followed by a separator), which is not a sequence of whole non-empty
segments. -/
theorem claim2_counterexample :
    regexTest (globToRegex "**/b") "a\n/b" = false ∧
    specGlobMatch "**/b" "a\n/b" = true ∧
    regexTest (globToRegex "**/b") "//b" = true ∧
    specGlobMatch "**/b" "//b" = false := by
  refine ⟨by decide, by decide, by decide, by decide⟩

/-- C2 (amended): `compile` is total, and the compiled anchored matcher
accepts exactly the strings accepted by the direct tokenisation of the
pattern — escape metacharacters, `?` one non-separator character, `**/`
either nothing or a non-empty run of non-line-terminator characters
followed by a separator (the semantics of `(?:.+/)?`), remaining `*`
zero or more non-separator characters — with earlier replacements never
clobbered by later ones; in particular the empty pattern accepts only
the empty string. -/
theorem claim2_amended_compile_semantics :
    (∀ P p : String, regexTest (globToRegex P) p = atomsMatch (globTokens P.data) p.data) ∧
    (∀ p : String, regexTest (globToRegex "") p = true ↔ p = "") := by
  have hmain : ∀ P p : String,
      regexTest (globToRegex P) p = atomsMatch (globTokens P.data) p.data := by
    intro P p
    unfold regexTest globToRegex
    rw [parse_globRegexSource]
  refine ⟨hmain, fun p => ?_⟩
  rw [hmain "" p]
  show atomsMatch (globTokens []) p.data = true ↔ p = ""
  rw [show globTokens [] = [] from rfl, atomsMatch_nil]
  constructor
  · intro h
    apply String.ext
    simpa using h
  · rintro rfl
    rfl

/-- C3: for any supplied ignore configuration (explicit patterns plus
`.gitignore` lines, concatenated into one list), a path is ignored
exactly when no override pattern (`!`-prefixed, prefix stripped before
compiling) matches it and some deny pattern does — a membership
characterisation independent of the order of the list — and whenever an
override pattern matches, `isIgnored` returns `false`. -/
theorem claim3_ignore_override_precedence (ignoreList : List String) (p : String) :
    (isIgnored (splitIgnores ignoreList).2 (splitIgnores ignoreList).1 p = true ↔
      ((¬ ∃ s ∈ ignoreList, strStartsWith (normalizeSeps s) "!" = true ∧
          regexTest (globToRegex ((normalizeSeps s).drop 1)) p = true) ∧
        ∃ s ∈ ignoreList, strStartsWith (normalizeSeps s) "!" = false ∧
          regexTest (globToRegex (normalizeSeps s)) p = true)) ∧
    (∀ s ∈ ignoreList, strStartsWith (normalizeSeps s) "!" = true →
      regexTest (globToRegex ((normalizeSeps s).drop 1)) p = true →
      isIgnored (splitIgnores ignoreList).2 (splitIgnores ignoreList).1 p = false) := by
  constructor
  · unfold isIgnored
    by_cases hneg : ((splitIgnores ignoreList).2.any fun m => regexTest m p) = true
    · rw [if_pos hneg]
      simp only [Bool.false_eq_true, false_iff]
      rintro ⟨hno, _⟩
      exact hno ((splitIgnores_neg_any ignoreList p).mp hneg)
    · rw [if_neg hneg]
      by_cases hden : ((splitIgnores ignoreList).1.any fun m => regexTest m p) = true
      · rw [if_pos hden]
        simp only [true_iff]
        constructor
        · intro hex
          exact hneg ((splitIgnores_neg_any ignoreList p).mpr hex)
        · exact (splitIgnores_deny_any ignoreList p).mp hden
      · rw [if_neg hden]
        simp only [Bool.false_eq_true, false_iff, not_and]
        intro _ hex
        exact hden ((splitIgnores_deny_any ignoreList p).mpr hex)
  · intro s hs hstart hmatch
    unfold isIgnored
    rw [if_pos ((splitIgnores_neg_any ignoreList p).mpr ⟨s, hs, hstart, hmatch⟩)]

theorem gtDepth_zero (md : Option Nat) : gtDepth 0 md = false := by
  cases md <;> simp [gtDepth]

/-- C4: with a finite `maxDepth = m`, walking a directory at a depth
greater than `m` does nothing; every visited entry is encountered at a
depth between the starting depth and `m` (so an entry at exactly `m` may
be listed but nothing below it is ever visited); and with `m = 0`
everything visited from depth 0 is a direct entry of the start
directory, encountered at depth 0. -/
theorem claim4_depth_bounds (cfg : Config) (m : Nat) (hm : cfg.maxDepth = some m) :
    (∀ (t : FsTree) (dirPath : String) (d : Nat), m < d → walk cfg t dirPath d = []) ∧
    (∀ (t : FsTree) (dirPath : String) (d : Nat) (e : FsTree) (rel : String) (dEnc : Nat),
      Visits cfg t dirPath d e rel dEnc → d ≤ dEnc ∧ dEnc ≤ m) ∧
    (m = 0 → ∀ (t : FsTree) (dirPath : String) (e : FsTree) (rel : String) (dEnc : Nat),
      Visits cfg t dirPath 0 e rel dEnc →
        dEnc = 0 ∧ ∃ es, opendirE t = some es ∧ e ∈ es) := by
  refine ⟨?_, ?_, ?_⟩
  · intro t dirPath d hd
    rw [walk.eq_def, if_pos]
    rw [hm]
    simpa [gtDepth] using hd
  · intro t dirPath d e rel dEnc hv
    have h := visits_depth_bounds hv
    refine ⟨h.1, ?_⟩
    have h2 := h.2
    rw [hm] at h2
    simpa [gtDepth] using h2
  · intro hm0 t dirPath e rel dEnc hv
    exact visits_maxDepth_zero (by rw [hm, hm0]) hv

/-- A concrete configuration with `maxDepth = 0`, for the depth-bound
witness. -/
def cfgDepthW : Config :=
  mkConfig ["*"] { cwd := "/b", maxDepth := some 0 }
    { root := FsTree.dir "b" (some [FsTree.file "a"]) }

theorem claim4_depth_bounds_witness :
    walk cfgDepthW (FsTree.dir "b" (some [FsTree.file "a"])) "/b" 1 = [] :=
  (claim4_depth_bounds cfgDepthW 0 rfl).1 _ "/b" 1 (by decide)

/-- C5: the traversal absorbs filesystem anomalies instead of
rejecting.  Walking a directory that cannot be opened contributes
nothing; when such a directory appears among the entries of a directory
the rest of the entries are still processed (the bad entry contributes
at most its own collected path); a missing or unreadable `.gitignore`
contributes zero ignore patterns; and with the
`.gitignore` missing, a `find` with `useGitignore` behaves exactly like
one without it. -/
theorem claim5_traversal_absorbs_failures (cfg : Config) (n : String) (rest : List FsTree)
    (dirPath : String) (d : Nat) (patterns : List String) (options : GlobOptions)
    (root : FsTree) (g : Option String) :
    walk cfg (FsTree.dir n none) dirPath d = [] ∧
    walkList cfg (FsTree.dir n none :: rest) dirPath d =
      (if isIgnored cfg.ignoreNegMatchers cfg.ignoreMatchers
          (pathRelative cfg.baseDir (pathJoin dirPath n)) then []
       else dirCollect cfg (pathRelative cfg.baseDir (pathJoin dirPath n))) ++
        walkList cfg rest dirPath d ∧
    loadGitignore none = [] ∧
    find patterns { options with useGitignore := true } { root := root, gitignore := none } =
      find patterns { options with useGitignore := false } { root := root, gitignore := g } := by
  have hbad : ∀ (dp : String) (dd : Nat), walk cfg (FsTree.dir n none) dp dd = [] := by
    intro dp dd
    rw [walk.eq_def]
    by_cases hgt : gtDepth dd cfg.maxDepth
    · rw [if_pos hgt]
    · rw [if_neg hgt]
  refine ⟨hbad dirPath d, ?_, rfl, ?_⟩
  · simp only [walkList, FsTree.name, FsTree.isDirectory, FsTree.isFile]
    by_cases hig : isIgnored cfg.ignoreNegMatchers cfg.ignoreMatchers
      (pathRelative cfg.baseDir (pathJoin dirPath n))
    · rw [if_pos hig, if_pos hig]
    · rw [if_neg hig, if_neg hig]
      simp only [if_true]
      by_cases hlt : ltDepth d cfg.maxDepth
      · rw [if_pos hlt, hbad _ _]
        simp
      · rw [if_neg hlt]
        simp
  · rfl

/-- C6 counterexample: with an invalid base directory (one `opendir`
cannot open), `find` does not raise — the `try`/`catch` inside `walk`
absorbs the failure — and resolves to the empty result sequence. -/
theorem claim6_counterexample :
    opendirE (FsTree.dir "base" none) = none ∧
    find ["*"] { cwd := "/base" } { root := FsTree.dir "base" none } = [] :=
  ⟨rfl, by decide⟩

/-- C6 (amended): a `find` call always runs to completion; an invalid
base directory — missing, unopenable, or not a directory — is absorbed
by the same per-directory error handling as any other unreadable
directory, and the call resolves to the empty sequence instead of
raising. -/
theorem claim6_amended_invalid_base_resolves (patterns : List String)
    (options : GlobOptions) (fs : FileSystem) (hbad : opendirE fs.root = none) :
    find patterns options fs = [] := by
  unfold find
  rw [walk.eq_def, if_neg (by rw [gtDepth_zero]; simp)]
  match hr : fs.root with
  | .file nm => rfl
  | .other nm => rfl
  | .dir nm none => rfl
  | .dir nm (some es) =>
    rw [hr] at hbad
    simp [opendirE] at hbad

theorem claim6_amended_invalid_base_resolves_witness :
    find ["*"] { cwd := "/b" } { root := FsTree.file "b" } = [] :=
  claim6_amended_invalid_base_resolves ["*"] { cwd := "/b" } { root := FsTree.file "b" } rfl

/-- C7: on the tree with `node_modules/pkg/index.js` and
`src/index.js`, `find` with pattern `**/*.js` and ignore list
`["**/node_modules/**"]` returns exactly `src/index.js`: nothing under
`node_modules` appears (the `node_modules` directory itself is not
ignored by that pattern, but `node_modules/pkg` is, so the walk never
reaches `index.js` below it). -/
theorem claim7_node_modules_scenario :
    find ["**/*.js"] { cwd := "/p", ignore := ["**/node_modules/**"] }
      { root := FsTree.dir "p" (some
          [FsTree.dir "node_modules" (some [FsTree.dir "pkg" (some [FsTree.file "index.js"])]),
           FsTree.dir "src" (some [FsTree.file "index.js"])]) } = ["src/index.js"] := by
  decide

theorem claim3_ignore_override_precedence_witness :
    isIgnored (splitIgnores ["*.log", "!keep.log"]).2 (splitIgnores ["*.log", "!keep.log"]).1
      "keep.log" = false :=
  (claim3_ignore_override_precedence ["*.log", "!keep.log"] "keep.log").2 "!keep.log"
    (by decide) (by decide) (by decide)

theorem string_data_append (a b : String) : (a ++ b).data = a.data ++ b.data := rfl

/-- C8: with `matchFilesWithoutExtensions = false`, a file entry whose
name has no extension is dropped at collection time, before and
independently of glob matching; with the option `true` such a file is
collected exactly when eligible and matched; and on the level of a full
`find` call with the option off, every result traces back to a visited
entry that, if a file, has a non-empty extension. -/
theorem claim8_extensionless_filter (cfg : Config) (name rel : String)
    (patterns : List String) (options : GlobOptions) (fs : FileSystem) (x : String) :
    (cfg.matchFilesWithoutExtensions = false → extname name = "" →
      fileCollect cfg name rel true = []) ∧
    (cfg.matchFilesWithoutExtensions = true →
      fileCollect cfg name rel true =
        (if (cfg.type = .files ∨ cfg.type = .all) ∧ anyMatch cfg.matchers rel then
          [collectPath cfg rel] else [])) ∧
    (options.matchFilesWithoutExtensions = false → x ∈ find patterns options fs →
      ∃ e rel' dEnc,
        Visits (mkConfig patterns options fs) fs.root
          (mkConfig patterns options fs).baseDir 0 e rel' dEnc ∧
        (e.isFile = true → extname e.name ≠ "") ∧
        x = collectPath (mkConfig patterns options fs) rel') := by
  refine ⟨?_, ?_, ?_⟩
  · intro hoff hext
    unfold fileCollect
    by_cases hk : (true : Bool) ∧ (cfg.type = .files ∨ cfg.type = .all)
    · rw [if_pos hk, if_pos ⟨hoff, hext⟩]
    · rw [if_neg hk]
  · intro hon
    unfold fileCollect
    by_cases hk : cfg.type = .files ∨ cfg.type = .all
    · rw [if_pos (⟨rfl, hk⟩ : (true : Bool) = true ∧ _), if_neg (by simp [hon])]
      by_cases hm : anyMatch cfg.matchers rel
      · rw [if_pos hm, if_pos ⟨hk, hm⟩]
      · rw [if_neg hm, if_neg fun hc => hm hc.2]
    · rw [if_neg fun hc => hk hc.2, if_neg fun hc => hk hc.1]
  · intro hoff hx
    obtain ⟨e, rel', dEnc, hv, hc⟩ :=
      (walk_mem_iff (mkConfig patterns options fs) fs.root
        (mkConfig patterns options fs).baseDir 0 x).mp (by simpa [find] using hx)
    refine ⟨e, rel', dEnc, hv, ?_, hc.2.2.2.2⟩
    intro hf hext
    have hext' := hc.2.2.1
    simp [extOk, hf, hext,
      show (mkConfig patterns options fs).matchFilesWithoutExtensions = false from hoff]
      at hext'

def fsMakefileW : FileSystem :=
  { root := FsTree.dir "b" (some [FsTree.file "Makefile"]) }

def cfgMakefileOff : Config :=
  mkConfig ["*"] { cwd := "/b", matchFilesWithoutExtensions := false } fsMakefileW

def cfgMakefileOn : Config := mkConfig ["*"] { cwd := "/b" } fsMakefileW

theorem claim8_extensionless_filter_witness :
    fileCollect cfgMakefileOff "Makefile" "Makefile" true = [] ∧
    fileCollect cfgMakefileOn "Makefile" "Makefile" true = ["Makefile"] := by
  constructor
  · exact (claim8_extensionless_filter cfgMakefileOff "Makefile" "Makefile" [] {} fsMakefileW
      "").1 rfl rfl
  · have h := (claim8_extensionless_filter cfgMakefileOn "Makefile" "Makefile" [] {}
      fsMakefileW "").2.1 rfl
    rw [h]
    decide

/-- C9: the base directory itself never appears in the results: with
`absolute = false` the empty relative path is never returned, and with
`absolute = true` the base directory's own path is never returned —
matchers and ignore rules are applied only to entries found inside
visited directories, whose base-relative paths are non-empty in any
well-formed tree. -/
theorem claim9_base_never_collected (patterns : List String) (options : GlobOptions)
    (fs : FileSystem) (hwf : wfNames fs.root = true) :
    (options.absolute = false → "" ∉ find patterns options fs) ∧
    (options.absolute = true → options.cwd ∉ find patterns options fs) := by
  have key : ∀ x ∈ find patterns options fs,
      ∃ rel : String, rel.data ≠ [] ∧ x = collectPath (mkConfig patterns options fs) rel := by
    intro x hx
    obtain ⟨e, rel, dEnc, hv, hc⟩ :=
      (walk_mem_iff (mkConfig patterns options fs) fs.root
        (mkConfig patterns options fs).baseDir 0 x).mp (by simpa [find] using hx)
    exact ⟨rel, visits_rel_ne_empty hv hwf (Or.inl rfl), hc.2.2.2.2⟩
  constructor
  · intro habs hmem
    obtain ⟨rel, hne, hx⟩ := key "" hmem
    unfold collectPath at hx
    rw [show (mkConfig patterns options fs).absolute = options.absolute from rfl, habs] at hx
    simp only [Bool.false_eq_true, if_false] at hx
    apply hne
    rw [← hx]
  · intro habs hmem
    obtain ⟨rel, hne, hx⟩ := key options.cwd hmem
    unfold collectPath at hx
    rw [show (mkConfig patterns options fs).absolute = options.absolute from rfl, habs,
      if_pos rfl] at hx
    have hbase : (mkConfig patterns options fs).baseDir = options.cwd := rfl
    rw [hbase] at hx
    unfold pathResolve at hx
    rw [if_neg (fun h => hne (by rw [h]))] at hx
    have hlen := congrArg (fun s : String => s.data.length) hx
    simp only [string_data_append, List.length_append] at hlen
    have hpos : 0 < rel.data.length := List.length_pos.mpr hne
    simp at hlen
    omega

theorem claim9_base_never_collected_witness :
    "" ∉ find ["*"] { cwd := "/b" } { root := FsTree.dir "b" (some [FsTree.file "a.txt"]) } :=
  (claim9_base_never_collected ["*"] { cwd := "/b" }
    { root := FsTree.dir "b" (some [FsTree.file "a.txt"]) } (by decide)).1 rfl

/-- C10: a directory entry that is neither a regular file nor a
directory (a symbolic link — also one pointing at a directory — socket,
or FIFO) contributes nothing to the walk for any option combination: it
is never collected and never descended into; and every `find` result
traces back to a visited entry that is a regular file or a directory. -/
theorem claim10_special_entries_skipped (cfg : Config) (n : String) (rest : List FsTree)
    (dirPath : String) (d : Nat) (patterns : List String) (options : GlobOptions)
    (fs : FileSystem) (x : String) :
    walkList cfg (FsTree.other n :: rest) dirPath d = walkList cfg rest dirPath d ∧
    (x ∈ find patterns options fs →
      ∃ e rel dEnc,
        Visits (mkConfig patterns options fs) fs.root
          (mkConfig patterns options fs).baseDir 0 e rel dEnc ∧
        (e.isFile = true ∨ e.isDirectory = true) ∧
        x = collectPath (mkConfig patterns options fs) rel) := by
  constructor
  · simp only [walkList, FsTree.name, FsTree.isDirectory, FsTree.isFile]
    by_cases hig : isIgnored cfg.ignoreNegMatchers cfg.ignoreMatchers
      (pathRelative cfg.baseDir (pathJoin dirPath n))
    · rw [if_pos hig]
      simp
    · rw [if_neg hig]
      simp [fileCollect]
  · intro hx
    obtain ⟨e, rel, dEnc, hv, hc⟩ :=
      (walk_mem_iff (mkConfig patterns options fs) fs.root
        (mkConfig patterns options fs).baseDir 0 x).mp (by simpa [find] using hx)
    refine ⟨e, rel, dEnc, hv, ?_, hc.2.2.2.2⟩
    have hk := hc.2.1
    unfold kindEligible at hk
    by_cases hdir : e.isDirectory
    · exact Or.inr hdir
    · rw [if_neg hdir] at hk
      simp only [Bool.and_eq_true] at hk
      exact Or.inl hk.1

def fsLinkW : FileSystem :=
  { root := FsTree.dir "b" (some [FsTree.other "link", FsTree.file "a.js"]) }

theorem claim10_special_entries_skipped_witness :
    ∃ e rel dEnc,
      Visits (mkConfig ["*"] { cwd := "/b" } fsLinkW) fsLinkW.root
        (mkConfig ["*"] { cwd := "/b" } fsLinkW).baseDir 0 e rel dEnc ∧
      (e.isFile = true ∨ e.isDirectory = true) ∧
      "a.js" = collectPath (mkConfig ["*"] { cwd := "/b" } fsLinkW) rel :=
  (claim10_special_entries_skipped (mkConfig ["*"] { cwd := "/b" } fsLinkW) "link" [] "/b" 0
    ["*"] { cwd := "/b" } fsLinkW "a.js").2 (by decide)
